/-
Verification of the HDL parser and chip simulator.

The source program is a Python package with two core modules:

  * `hdl_parser.py`  : parses HDL text into `Chip` records and keeps a
                       registry (`self.chips`) of chip definitions;
  * `simulator.py`   : simulates a chip, either via one of the four
                       built-in logic functions or by recursively
                       simulating the parts of a composite chip while
                       threading a flat signal table.

This file gives a shallow embedding of both modules and proves the
frozen specification claims against it.  Python strings are embedded
as `List Char` (so that `strip`/`split`/prefix tests become ordinary
list functions), Python dicts as association lists with
replace-first-or-append update (`dictSet`) and first-match lookup with
default (`dictGet`), which is observationally equivalent to a Python
dict for the get/set/in operations the program uses.  Python's
unbounded recursion is embedded with an explicit fuel parameter; fuel
exhaustion corresponds to Python's `RecursionError`.

For the mutation claim about `simulate_chip` (the caller's `inputs`
dict is never mutated and the returned dict is fresh) the pure model
is too coarse, so a second, heap-based model of the very same
simulator code is given at the end: dicts live in an explicit heap and
are addressed by references, mirroring Python object semantics
statement by statement.
-/

import Mathlib

set_option maxHeartbeats 1000000

namespace HDLVerify

/-- Python strings, embedded as lists of characters. -/
abbrev PyStr := List Char

/-- Convenience coercion from Lean string literals to embedded Python strings. -/
def ps (s : String) : PyStr := s.toList

/-- The characters stripped by Python's `str.strip()` (ASCII whitespace). -/
def isPySpace (c : Char) : Bool :=
  c == ' ' || c == '\t' || c == '\n' || c == '\r' || c == '\x0b' || c == '\x0c'

/-- Left half of Python `str.strip()`. -/
def ltrimC (l : PyStr) : PyStr := l.dropWhile isPySpace

/-- Right half of Python `str.strip()`. -/
def rtrimC (l : PyStr) : PyStr := (l.reverse.dropWhile isPySpace).reverse

/-- Python `str.strip()`: drop whitespace from both ends. -/
def pyStrip (l : PyStr) : PyStr := rtrimC (ltrimC l)

/-- Python `str.split(c)` for a single-character separator: splits at every
occurrence, keeping empty pieces (`"".split(c) = [""]`). -/
def splitOnChar (c : Char) : PyStr → List PyStr
  | [] => [[]]
  | x :: xs =>
    if x = c then [] :: splitOnChar c xs
    else
      match splitOnChar c xs with
      | [] => [[x]]
      | y :: ys => (x :: y) :: ys

/-- Python dict lookup `d.get(k, dflt)`: value of the first entry with key
`k`, or the default. -/
def dictGet {α : Type} : List (PyStr × α) → PyStr → α → α
  | [], _, dflt => dflt
  | p :: rest, k, dflt => if p.1 = k then p.2 else dictGet rest k dflt

/-- Python dict update `d[k] = v`: replace the first entry with key `k`
(keeping its position), or append a new entry. -/
def dictSet {α : Type} : List (PyStr × α) → PyStr → α → List (PyStr × α)
  | [], k, v => [(k, v)]
  | p :: rest, k, v => if p.1 = k then (k, v) :: rest else p :: dictSet rest k v

/-- Python `k in d` for dicts: is some entry keyed by `k`? -/
def dictHasKey {α : Type} (d : List (PyStr × α)) (k : PyStr) : Bool :=
  d.any (fun p => p.1 == k)

/-- A simulation-time signal table / input map: names to integer values. -/
abbrev PyDict := List (PyStr × Int)

/-! ## Data model (`hdl_parser.py`, dataclasses) -/

/-- `PinType` enum from `hdl_parser.py`. -/
inductive PinType where
  | INPUT
  | OUTPUT
deriving DecidableEq, Repr

/-- The `value` of a `PinType` member (`"IN"` / `"OUT"`). -/
def PinType.value : PinType → PyStr
  | .INPUT => ps "IN"
  | .OUTPUT => ps "OUT"

/-- `Connection` dataclass: `from_pin` is the external signal name in the
enclosing chip, `to_pin` the local pin of the part (this is how
`_parse_connections` fills the two fields). -/
structure Connection where
  from_pin : PyStr
  to_pin : PyStr
deriving DecidableEq, Repr

/-- `ChipInstance` dataclass: one use of a chip inside a PARTS section. -/
structure ChipInstance where
  chip_name : PyStr
  instance_name : PyStr
  connections : List Connection
deriving DecidableEq, Repr

/-- `Chip` dataclass. -/
structure Chip where
  name : PyStr
  inputs : List PyStr
  outputs : List PyStr
  parts : List ChipInstance
  is_builtin : Bool := false
deriving DecidableEq, Repr

/-! ## Parser (`hdl_parser.py`, class `HDLParser`) -/

/-- ASCII core of Python's regex `\w` character class. -/
def isWordChar (c : Char) : Bool := c.isAlphanum || c == '_'

/-- `re.match(r'CHIP\s+(\w+)', first_line)` from `_extract_chip_name`:
literal `CHIP`, at least one whitespace character, then the captured
maximal run of word characters.  (`re.match` anchors at the start only;
trailing text is ignored.) -/
def matchChipHeader (line : PyStr) : Option PyStr :=
  if (ps "CHIP").isPrefixOf line then
    match line.drop 4 with
    | [] => none
    | c :: rest =>
      if isPySpace c then
        let w := (rest.dropWhile isPySpace).takeWhile isWordChar
        if w.isEmpty then none else some w
      else none
  else none

/-- `HDLParser._extract_chip_name`: header match or a `ValueError`. -/
def extractChipName (first : PyStr) : Except String PyStr :=
  match matchChipHeader first with
  | some nm => .ok nm
  | none => .error ("Invalid chip declaration: " ++ String.mk first)

/-- `HDLParser._extract_pins`: take the first line starting with the pin
keyword, drop the keyword, strip, drop one trailing `;`, split on commas
and strip each piece. -/
def extractPins (lines : List PyStr) (pt : PinType) : List PyStr :=
  match lines.find? (fun l => (pt.value).isPrefixOf l) with
  | none => []
  | some line =>
    let pinLine := pyStrip (line.drop (pt.value).length)
    let pinLine := if pinLine.getLast? = some ';' then pinLine.dropLast else pinLine
    (splitOnChar ',' pinLine).map pyStrip

/-- Loop body of `HDLParser._parse_connections`: strip the token; if it
contains `=`, split at the first `=` (`part.split('=', 1)`) into local
pin (left of the first `=`) and external signal (the entire remainder),
strip both and append the `Connection`; otherwise leave the accumulator
unchanged. -/
def parseConnToken (acc : List Connection) (t : PyStr) : List Connection :=
  let p := pyStrip t
  if '=' ∈ p then
    let pin := p.takeWhile (fun c => c != '=')
    let signal := (p.dropWhile (fun c => c != '=')).tail
    acc ++ [⟨pyStrip signal, pyStrip pin⟩]
  else acc

/-- `HDLParser._parse_connections`: split the connection string on commas
and run the token loop. -/
def parseConnections (s : PyStr) : List Connection :=
  (splitOnChar ',' s).foldl parseConnToken []

/-- `HDLParser._parse_part_line`, i.e. the regex
`(\w+)(?:\s+(\w+))?\s*\((.*)\)` applied with `re.match`:

* `w1` is the maximal leading run of word characters (the chip name;
  empty means no match);
* after it, whitespace is skipped and an optional second word `w2` (the
  instance name) with the whitespace after it;
* then a literal `(` must follow, and the greedy `(.*)\)` captures
  everything up to the *last* `)` of the line; with no `)` there is no
  match.  Trailing text after the last `)` is ignored by `re.match`.

Lines handed to this function never contain a newline (they come from a
`split('\n')`), so `.` matching any non-newline character is exact. -/
def parsePartLine (line : PyStr) : Option ChipInstance :=
  let w1 := line.takeWhile isWordChar
  if w1.isEmpty then none
  else
    let r1 := line.dropWhile isWordChar
    let r2 := r1.dropWhile isPySpace
    let w2 := r2.takeWhile isWordChar
    let r3 := (r2.dropWhile isWordChar).dropWhile isPySpace
    match r3 with
    | '(' :: rest =>
      match rest.reverse.dropWhile (fun c => c != ')') with
      | [] => none
      | _ :: tl =>
        let grp := tl.reverse
        let instName := if w2.isEmpty then w1 else w2
        some ⟨w1, instName, parseConnections grp⟩
    | _ => none

/-- The loop body of `HDLParser._extract_parts`, with the
`in_parts_section` flag as an explicit argument: `PARTS:` switches the
flag on, a line starting with `IN` or `OUT` switches it off, and each
nonempty in-section line contributes the result of `_parse_part_line`
when that is not `None`. -/
def extractPartsAux : List PyStr → Bool → List ChipInstance
  | [], _ => []
  | line :: rest, inParts =>
    if (ps "PARTS:").isPrefixOf line then extractPartsAux rest true
    else if (ps "IN").isPrefixOf line || (ps "OUT").isPrefixOf line then
      extractPartsAux rest false
    else if inParts && !line.isEmpty then
      match parsePartLine line with
      | some part => part :: extractPartsAux rest inParts
      | none => extractPartsAux rest inParts
    else extractPartsAux rest inParts

/-- `HDLParser._extract_parts`. -/
def extractParts (lines : List PyStr) : List ChipInstance :=
  extractPartsAux lines false

/-- The comment filter of `parse_content`: a stripped line is kept iff it
starts with none of `/**`, ` *`, `*/`, `*`. -/
def keepLine (l : PyStr) : Bool :=
  !(ps "/**").isPrefixOf l && !(ps " *").isPrefixOf l &&
    !(ps "*/").isPrefixOf l && !(ps "*").isPrefixOf l

/-- First line of `parse_content`: split the content on newlines, strip
each line, drop the empty ones. -/
def strippedLines (content : PyStr) : List PyStr :=
  ((splitOnChar '\n' content).map pyStrip).filter (fun l => !l.isEmpty)

/-- The `non_comment_lines` list of `parse_content`. -/
def nonCommentLines (content : PyStr) : List PyStr :=
  (strippedLines content).filter keepLine

/-- The rest of `HDLParser.parse_content` after the line preprocessing,
acting on the chip registry `self.chips`:  taking `non_comment_lines[0]`
raises an `IndexError` when no line is left; then the chip name is
extracted (a `ValueError` on a malformed header), pins and parts are
collected from all non-comment lines, and the resulting chip is
registered under its name and returned. -/
def parseLines (chips : List (PyStr × Chip)) :
    List PyStr → Except String (List (PyStr × Chip) × Chip)
  | [] => .error "list index out of range"
  | first :: rest =>
    match extractChipName first with
    | .error e => .error e
    | .ok chipName =>
      let chip : Chip :=
        { name := chipName
          inputs := extractPins (first :: rest) .INPUT
          outputs := extractPins (first :: rest) .OUTPUT
          parts := extractParts (first :: rest)
          is_builtin := false }
      .ok (dictSet chips chipName chip, chip)

/-- `HDLParser.parse_content` (registry-passing form: the Python method
mutates `self.chips`; here the updated registry is returned). -/
def parseContent (chips : List (PyStr × Chip)) (content : PyStr) :
    Except String (List (PyStr × Chip) × Chip) :=
  parseLines chips (nonCommentLines content)

/-- `HDLParser.BUILTIN_CHIPS` class constant (name with input/output
counts). -/
def BUILTIN_CHIPS : List (PyStr × Nat × Nat) :=
  [(ps "Nand", 2, 1), (ps "Not", 1, 1), (ps "And", 2, 1), (ps "Or", 2, 1)]

/-- `HDLParser.is_builtin`: membership of the name in `BUILTIN_CHIPS`.
The method consults only the fixed class constant, never the mutable
`self.chips` registry. -/
def isBuiltin (chip_name : PyStr) : Bool :=
  BUILTIN_CHIPS.any (fun p => p.1 == chip_name)

/-- The four built-in chip definitions installed by
`HDLParser._load_builtin_chips`. -/
def builtinChips : List Chip :=
  [ { name := ps "Nand", inputs := [ps "a", ps "b"], outputs := [ps "out"],
      parts := [], is_builtin := true }
  , { name := ps "Not", inputs := [ps "in"], outputs := [ps "out"],
      parts := [], is_builtin := true }
  , { name := ps "And", inputs := [ps "a", ps "b"], outputs := [ps "out"],
      parts := [], is_builtin := true }
  , { name := ps "Or", inputs := [ps "a", ps "b"], outputs := [ps "out"],
      parts := [], is_builtin := true } ]

/-- The parser state seen by the simulator: the `self.chips` registry plus
the file system lookup performed by `get_chip`.  `fileResolve nm` models
`self.parse_file(f"chips/... .hdl")` wrapped in the
`except FileNotFoundError` handler of `get_chip`: `none` when the file for
`nm` does not exist, otherwise the chip parsed from it.  (Registering a
file-loaded chip only adds a cache hit for later lookups and cannot change
any simulation result, so the registry is threaded read-only here.) -/
structure Store where
  chips : List (PyStr × Chip)
  fileResolve : PyStr → Option Chip

/-- `HDLParser.get_chip`: registry lookup first, then the on-demand file
parse; `none` when both fail. -/
def getChip (st : Store) (chip_name : PyStr) : Option Chip :=
  match st.chips.find? (fun p => p.1 == chip_name) with
  | some p => some p.2
  | none => st.fileResolve chip_name

/-- A freshly constructed parser state (`HDLParser.__init__` +
`_load_builtin_chips`), over a given file system. -/
def initStore (fr : PyStr → Option Chip) : Store :=
  { chips := builtinChips.foldl (fun d c => dictSet d c.name c) []
    fileResolve := fr }

/-! ## Simulator (`simulator.py`, class `ChipSimulator`) — pure model

Signal tables are passed as values.  This is faithful because the Python
code only ever mutates dicts it allocated itself (`signals =
inputs.copy()`, `part_inputs = {}`); that aliasing discipline is itself
proved in the heap model below. -/

/-- `ChipSimulator._nand_logic`. -/
def nandLogic (signals : PyDict) : PyDict :=
  let a := dictGet signals (ps "a") 0
  let b := dictGet signals (ps "b") 0
  [(ps "out", if a = 1 ∧ b = 1 then 0 else 1)]

/-- `ChipSimulator._not_logic`. -/
def notLogic (signals : PyDict) : PyDict :=
  let in_val := dictGet signals (ps "in") 0
  [(ps "out", if in_val = 0 then 1 else 0)]

/-- `ChipSimulator._and_logic`. -/
def andLogic (signals : PyDict) : PyDict :=
  let a := dictGet signals (ps "a") 0
  let b := dictGet signals (ps "b") 0
  [(ps "out", if a = 1 ∧ b = 1 then 1 else 0)]

/-- `ChipSimulator._or_logic`. -/
def orLogic (signals : PyDict) : PyDict :=
  let a := dictGet signals (ps "a") 0
  let b := dictGet signals (ps "b") 0
  [(ps "out", if a = 1 ∨ b = 1 then 1 else 0)]

/-- The `self.builtin_logic` dispatch table set up by
`_setup_builtin_logic`. -/
def builtinLogic (nm : PyStr) : Option (PyDict → PyDict) :=
  if nm = ps "Nand" then some nandLogic
  else if nm = ps "Not" then some notLogic
  else if nm = ps "And" then some andLogic
  else if nm = ps "Or" then some orLogic
  else none

/-- `ChipSimulator._simulate_builtin`. -/
def simulateBuiltin (chip : Chip) (signals : PyDict) : Except String PyDict :=
  match builtinLogic chip.name with
  | none => .error ("No logic defined for built-in chip: " ++ String.mk chip.name)
  | some f => .ok (f signals)

/-- The first loop of `_simulate_part`: the `part_inputs` dict, built from
the connections whose local pin is a declared input of the part's chip,
reading the routed signal from the enclosing table with default `0`. -/
def partInputs (cdef : Chip) (part : ChipInstance) (signals : PyDict) : PyDict :=
  part.connections.foldl
    (fun acc c =>
      if c.to_pin ∈ cdef.inputs then
        dictSet acc c.to_pin (dictGet signals c.from_pin 0)
      else acc)
    []

/-- The second loop of `_simulate_part`: write each output-pin connection's
value from the part's output dict into the enclosing signal table under
the external signal name. -/
def writeOutputs (cdef : Chip) (part : ChipInstance) (part_outputs : PyDict)
    (signals : PyDict) : PyDict :=
  part.connections.foldl
    (fun acc c =>
      if c.to_pin ∈ cdef.outputs then
        dictSet acc c.from_pin (dictGet part_outputs c.to_pin 0)
      else acc)
    signals

/-- `ChipSimulator._simulate_part`, parameterised by the recursive
`simulate_chip` call.  Returns the updated enclosing signal table. -/
def simulatePartWith (sim : PyStr → PyDict → Except String PyDict) (st : Store)
    (part : ChipInstance) (signals : PyDict) : Except String PyDict :=
  match getChip st part.chip_name with
  | none => .error ("Unknown chip: " ++ String.mk part.chip_name)
  | some cdef =>
    match sim part.chip_name (partInputs cdef part signals) with
    | .error e => .error e
    | .ok part_outputs => .ok (writeOutputs cdef part part_outputs signals)

/-- The output projection of `_simulate_composite`:
`{output: signals.get(output, 0) for output in chip.outputs}`. -/
def outputProjection (chip : Chip) (signals : PyDict) : PyDict :=
  chip.outputs.foldl (fun acc o => dictSet acc o (dictGet signals o 0)) []

/-- `ChipSimulator._simulate_composite`, parameterised by the recursive
`simulate_chip` call: simulate the parts in declaration order, then
project the final signal table onto the declared outputs. -/
def simulateCompositeWith (sim : PyStr → PyDict → Except String PyDict)
    (st : Store) (chip : Chip) (signals : PyDict) : Except String PyDict :=
  match chip.parts.foldlM (fun s part => simulatePartWith sim st part s) signals with
  | .error e => .error e
  | .ok final => .ok (outputProjection chip final)

/-- `ChipSimulator.simulate_chip`.  `fuel` bounds the recursion depth
(Python's call stack); running out of fuel plays the role of a
`RecursionError`.  In this pure model `signals = inputs.copy()` is the
identity. -/
def simulateChip (st : Store) : Nat → PyStr → PyDict → Except String PyDict
  | 0, _, _ => .error "maximum recursion depth exceeded"
  | fuel + 1, chip_name, inputs =>
    match getChip st chip_name with
    | none => .error ("Unknown chip: " ++ String.mk chip_name)
    | some chip =>
      if chip.is_builtin then simulateBuiltin chip inputs
      else simulateCompositeWith (simulateChip st fuel) st chip inputs

/-- `_simulate_part` with the recursive call at a given fuel. -/
def simulatePart (st : Store) (fuel : Nat) (part : ChipInstance)
    (signals : PyDict) : Except String PyDict :=
  simulatePartWith (simulateChip st fuel) st part signals

/-- The lines of `_extract_parts` that reach `_parse_part_line`: the PARTS
region.  Same control flow as `extractPartsAux`, but collecting the lines
instead of parsing them — `PARTS:` opens the region, a line starting with
`IN` or `OUT` closes it, and nonempty lines inside it belong to it. -/
def partsRegionAux : List PyStr → Bool → List PyStr
  | [], _ => []
  | line :: rest, inParts =>
    if (ps "PARTS:").isPrefixOf line then partsRegionAux rest true
    else if (ps "IN").isPrefixOf line || (ps "OUT").isPrefixOf line then
      partsRegionAux rest false
    else if inParts && !line.isEmpty then line :: partsRegionAux rest inParts
    else partsRegionAux rest inParts

/-- The PARTS region of a line list, starting outside the region. -/
def partsRegion (lines : List PyStr) : List PyStr :=
  partsRegionAux lines false

/-! ## Simulator — heap model

Python dicts are heap objects passed by reference; `_simulate_composite`
and `_simulate_part` mutate the `signals` dict in place.  To state and
prove the claim that `simulate_chip` never mutates the caller's `inputs`
dict and returns a freshly allocated result dict, the same code is
embedded once more with the heap explicit: a `Heap` is a list of dicts,
a dict value is an index (reference) into it.  Every `{...}` / `.copy()`
in the Python source becomes an `alloc`, every `d[k] = v` a `write`. -/

/-- The heap of dict objects; a reference is an index into `mem`. -/
structure Heap where
  mem : List PyDict
deriving Repr

/-- Dereference: the dict at reference `r` (dangling references read as
empty, they are never created by the embedded code). -/
def Heap.read (h : Heap) (r : Nat) : PyDict := h.mem.getD r []

/-- Overwrite the dict at reference `r`. -/
def Heap.write (h : Heap) (r : Nat) (d : PyDict) : Heap := ⟨h.mem.set r d⟩

/-- Allocate a new dict object; the fresh reference is `h.size`. -/
def Heap.alloc (h : Heap) (d : PyDict) : Heap := ⟨h.mem ++ [d]⟩

/-- Number of allocated objects. -/
def Heap.size (h : Heap) : Nat := h.mem.length

/-- Python `d[k] = v` on the dict object behind reference `r`. -/
def heapDictSet (h : Heap) (r : Nat) (k : PyStr) (v : Int) : Heap :=
  h.write r (dictSet (h.read r) k v)

/-- First loop of `_simulate_part`, heap form: fill the `part_inputs` dict
at `piRef` from the signal table at `sigRef`. -/
def loadPartInputsH (cdef : Chip) (part : ChipInstance) (sigRef piRef : Nat)
    (h : Heap) : Heap :=
  part.connections.foldl
    (fun h c =>
      if c.to_pin ∈ cdef.inputs then
        heapDictSet h piRef c.to_pin (dictGet (h.read sigRef) c.from_pin 0)
      else h)
    h

/-- Second loop of `_simulate_part`, heap form: write the part's outputs
(dict at `outRef`) back into the signal table at `sigRef`. -/
def storePartOutputsH (cdef : Chip) (part : ChipInstance) (sigRef outRef : Nat)
    (h : Heap) : Heap :=
  part.connections.foldl
    (fun h c =>
      if c.to_pin ∈ cdef.outputs then
        heapDictSet h sigRef c.from_pin (dictGet (h.read outRef) c.to_pin 0)
      else h)
    h

/-- `ChipSimulator._simulate_part`, heap form, parameterised by the
recursive `simulate_chip` call (which takes a reference to the input dict
and returns a reference to the output dict). -/
def simulatePartWithH (sim : PyStr → Nat → Heap → Except String (Nat × Heap))
    (st : Store) (part : ChipInstance) (sigRef : Nat) (h : Heap) :
    Except String Heap :=
  match getChip st part.chip_name with
  | none => .error ("Unknown chip: " ++ String.mk part.chip_name)
  | some cdef =>
    let piRef := h.size
    let h2 := loadPartInputsH cdef part sigRef piRef (h.alloc [])
    match sim part.chip_name piRef h2 with
    | .error e => .error e
    | .ok (outRef, h3) => .ok (storePartOutputsH cdef part sigRef outRef h3)

/-- The parts loop of `_simulate_composite`, heap form. -/
def simulatePartsH (sim : PyStr → Nat → Heap → Except String (Nat × Heap))
    (st : Store) (parts : List ChipInstance) (sigRef : Nat) (h : Heap) :
    Except String Heap :=
  parts.foldlM (fun h part => simulatePartWithH sim st part sigRef h) h

/-- `ChipSimulator._simulate_composite`, heap form: run the parts, then
allocate the fresh output dict `{output: signals.get(output, 0) ...}`. -/
def simulateCompositeWithH (sim : PyStr → Nat → Heap → Except String (Nat × Heap))
    (st : Store) (chip : Chip) (sigRef : Nat) (h : Heap) :
    Except String (Nat × Heap) :=
  match simulatePartsH sim st chip.parts sigRef h with
  | .error e => .error e
  | .ok h1 =>
    let out := chip.outputs.foldl
      (fun acc o => dictSet acc o (dictGet (h1.read sigRef) o 0)) []
    .ok (h1.size, h1.alloc out)

/-- `ChipSimulator._simulate_builtin`, heap form: the logic function reads
the signal dict and returns a fresh `{'out': ...}` dict. -/
def simulateBuiltinH (chip : Chip) (sigRef : Nat) (h : Heap) :
    Except String (Nat × Heap) :=
  match builtinLogic chip.name with
  | none => .error ("No logic defined for built-in chip: " ++ String.mk chip.name)
  | some f => .ok (h.size, h.alloc (f (h.read sigRef)))

/-- `ChipSimulator.simulate_chip`, heap form.  `signals = inputs.copy()`
allocates a fresh dict with the same entries. -/
def simulateChipH (st : Store) : Nat → PyStr → Nat → Heap → Except String (Nat × Heap)
  | 0, _, _, _ => .error "maximum recursion depth exceeded"
  | fuel + 1, chip_name, inRef, h =>
    match getChip st chip_name with
    | none => .error ("Unknown chip: " ++ String.mk chip_name)
    | some chip =>
      let h1 := h.alloc (h.read inRef)
      if chip.is_builtin then simulateBuiltinH chip h.size h1
      else simulateCompositeWithH (simulateChipH st fuel) st chip h.size h1

/-- The frame property of a `simulate_chip`-shaped heap function: a
successful call leaves every previously allocated object untouched and
returns a reference that was not allocated before the call. -/
def SimFrame (sim : PyStr → Nat → Heap → Except String (Nat × Heap)) : Prop :=
  ∀ nm iR h oR h', sim nm iR h = .ok (oR, h') →
    (∀ r, r < h.size → h'.read r = h.read r) ∧ h.size ≤ oR ∧ oR < h'.size

/-! ## Helper lemmas: dictionaries -/

theorem dictGet_set_self {α : Type} (d : List (PyStr × α)) (k : PyStr) (v dflt : α) :
    dictGet (dictSet d k v) k dflt = v := by
  induction d with
  | nil => simp [dictGet, dictSet]
  | cons p rest ih =>
    by_cases h : p.1 = k
    · simp [dictSet, h, dictGet]
    · simp [dictSet, h, dictGet, ih]

theorem dictGet_set_ne {α : Type} (d : List (PyStr × α)) (k k' : PyStr) (v dflt : α)
    (h : k' ≠ k) : dictGet (dictSet d k' v) k dflt = dictGet d k dflt := by
  induction d with
  | nil => simp [dictGet, dictSet, h]
  | cons p rest ih =>
    by_cases hp : p.1 = k'
    · have hpk : ¬ p.1 = k := fun hk => h (hp.symm.trans hk)
      simp only [dictSet, if_pos hp, dictGet, if_neg h, if_neg hpk]
    · by_cases hk : p.1 = k
      · simp only [dictSet, if_neg hp, dictGet, if_pos hk]
      · simp only [dictSet, if_neg hp, dictGet, if_neg hk]
        exact ih

theorem dictGet_default_of_no_key {α : Type} (d : List (PyStr × α)) (k : PyStr)
    (dflt : α) (h : ∀ p ∈ d, p.1 ≠ k) : dictGet d k dflt = dflt := by
  induction d with
  | nil => simp [dictGet]
  | cons p rest ih =>
    have hp : ¬ p.1 = k := h p (by simp)
    simp [dictGet, hp]
    exact ih (fun q hq => h q (by simp [hq]))

/-! ## Helper lemmas: the heap -/

theorem Heap.size_write (h : Heap) (r : Nat) (d : PyDict) :
    (h.write r d).size = h.size := by
  simp [Heap.write, Heap.size]

theorem Heap.read_write_ne (h : Heap) (r r' : Nat) (d : PyDict) (hne : r' ≠ r) :
    (h.write r d).read r' = h.read r' := by
  simp only [Heap.read, Heap.write]
  rw [List.getD_eq_getD_get?, List.getD_eq_getD_get?,
    List.get?_set_ne _ _ (fun he => hne he.symm)]

theorem Heap.size_alloc (h : Heap) (d : PyDict) : (h.alloc d).size = h.size + 1 := by
  simp [Heap.alloc, Heap.size]

theorem Heap.read_alloc_lt (h : Heap) (d : PyDict) (r : Nat) (hr : r < h.size) :
    (h.alloc d).read r = h.read r := by
  simp only [Heap.read, Heap.alloc]
  exact List.getD_append _ _ _ _ hr

theorem Heap.read_alloc_self (h : Heap) (d : PyDict) : (h.alloc d).read h.size = d := by
  simp only [Heap.read, Heap.alloc, Heap.size]
  rw [List.getD_append_right _ _ _ _ (Nat.le_refl _), Nat.sub_self]
  rfl

/-- Frame lemma for loops that only write one fixed reference `t`. -/
theorem foldl_write_frame {β : Type} (step : Heap → β → Heap) (t : Nat)
    (hstep : ∀ (h : Heap) (c : β), (step h c).size = h.size ∧
      ∀ r, r ≠ t → (step h c).read r = h.read r) :
    ∀ (cs : List β) (h : Heap), ((cs.foldl step h).size = h.size ∧
      ∀ r, r ≠ t → (cs.foldl step h).read r = h.read r) := by
  intro cs
  induction cs with
  | nil => intro h; simp
  | cons c rest ih =>
    intro h
    refine ⟨?_, fun r hr => ?_⟩
    · rw [List.foldl_cons, (ih (step h c)).1, (hstep h c).1]
    · rw [List.foldl_cons, (ih (step h c)).2 r hr, (hstep h c).2 r hr]

theorem loadPartInputsH_frame (cdef : Chip) (part : ChipInstance)
    (sigRef piRef : Nat) (h : Heap) :
    (loadPartInputsH cdef part sigRef piRef h).size = h.size ∧
    ∀ r, r ≠ piRef → (loadPartInputsH cdef part sigRef piRef h).read r = h.read r := by
  refine foldl_write_frame _ piRef (fun h c => ?_) part.connections h
  by_cases hc : c.to_pin ∈ cdef.inputs
  · constructor
    · simp [hc, heapDictSet, Heap.size_write]
    · intro r hr; simp [hc, heapDictSet, Heap.read_write_ne _ _ _ _ hr]
  · simp [hc]

theorem storePartOutputsH_frame (cdef : Chip) (part : ChipInstance)
    (sigRef outRef : Nat) (h : Heap) :
    (storePartOutputsH cdef part sigRef outRef h).size = h.size ∧
    ∀ r, r ≠ sigRef → (storePartOutputsH cdef part sigRef outRef h).read r = h.read r := by
  refine foldl_write_frame _ sigRef (fun h c => ?_) part.connections h
  by_cases hc : c.to_pin ∈ cdef.outputs
  · constructor
    · simp [hc, heapDictSet, Heap.size_write]
    · intro r hr; simp [hc, heapDictSet, Heap.read_write_ne _ _ _ _ hr]
  · simp [hc]

theorem simulatePartWithH_frame (sim : PyStr → Nat → Heap → Except String (Nat × Heap))
    (st : Store) (hsim : SimFrame sim) (part : ChipInstance) (sigRef : Nat)
    (h h' : Heap) (hok : simulatePartWithH sim st part sigRef h = .ok h') :
    (∀ r, r < h.size → r ≠ sigRef → h'.read r = h.read r) ∧ h.size ≤ h'.size := by
  unfold simulatePartWithH at hok
  cases hdef : getChip st part.chip_name with
  | none => rw [hdef] at hok; exact Except.noConfusion hok
  | some cdef =>
    rw [hdef] at hok
    simp only at hok
    cases hs : sim part.chip_name h.size
        (loadPartInputsH cdef part sigRef h.size (h.alloc [])) with
    | error e => rw [hs] at hok; exact Except.noConfusion hok
    | ok p =>
      obtain ⟨outRef, h3⟩ := p
      rw [hs] at hok
      simp only [Except.ok.injEq] at hok
      subst hok
      have hload := loadPartInputsH_frame cdef part sigRef h.size (h.alloc [])
      have hsimf := hsim part.chip_name h.size _ outRef h3 hs
      have hstore := storePartOutputsH_frame cdef part sigRef outRef h3
      have hsz2 : (loadPartInputsH cdef part sigRef h.size (h.alloc [])).size
          = h.size + 1 := by rw [hload.1, Heap.size_alloc]
      constructor
      · intro r hr hne
        have hrp : r ≠ h.size := Nat.ne_of_lt hr
        rw [hstore.2 r hne, hsimf.1 r (by omega),
          hload.2 r hrp, Heap.read_alloc_lt h [] r hr]
      · have : h.size + 1 ≤ h3.size := by
          have := hsimf.2.1
          have := hsimf.2.2
          omega
        rw [hstore.1]
        omega

theorem simulatePartsH_frame (sim : PyStr → Nat → Heap → Except String (Nat × Heap))
    (st : Store) (hsim : SimFrame sim) :
    ∀ (parts : List ChipInstance) (sigRef : Nat) (h h' : Heap),
      simulatePartsH sim st parts sigRef h = .ok h' →
      (∀ r, r < h.size → r ≠ sigRef → h'.read r = h.read r) ∧ h.size ≤ h'.size := by
  intro parts
  induction parts with
  | nil =>
    intro sigRef h h' hok
    simp only [simulatePartsH, List.foldlM_nil] at hok
    have : h = h' := by
      have := hok
      simp only [pure, Except.pure, Except.ok.injEq] at this
      exact this
    subst this
    exact ⟨fun _ _ _ => rfl, Nat.le_refl _⟩
  | cons part rest ih =>
    intro sigRef h h' hok
    simp only [simulatePartsH, List.foldlM_cons] at hok
    cases hmid : simulatePartWithH sim st part sigRef h with
    | error e =>
      rw [hmid] at hok
      simp only [bind, Except.bind] at hok
      exact Except.noConfusion hok
    | ok h1 =>
      rw [hmid] at hok
      simp only [bind, Except.bind] at hok
      have h1f := simulatePartWithH_frame sim st hsim part sigRef h h1 hmid
      have h2f := ih sigRef h1 h' hok
      refine ⟨fun r hr hne => ?_, Nat.le_trans h1f.2 h2f.2⟩
      rw [h2f.1 r (Nat.lt_of_lt_of_le hr h1f.2) hne, h1f.1 r hr hne]

theorem simulateCompositeWithH_frame (sim : PyStr → Nat → Heap → Except String (Nat × Heap))
    (st : Store) (hsim : SimFrame sim) (chip : Chip) (sigRef : Nat) (h : Heap)
    (oR : Nat) (h' : Heap)
    (hok : simulateCompositeWithH sim st chip sigRef h = .ok (oR, h')) :
    (∀ r, r < h.size → r ≠ sigRef → h'.read r = h.read r) ∧
      h.size ≤ oR ∧ oR < h'.size := by
  unfold simulateCompositeWithH at hok
  cases hp : simulatePartsH sim st chip.parts sigRef h with
  | error e => rw [hp] at hok; exact Except.noConfusion hok
  | ok h1 =>
    rw [hp] at hok
    simp only [Except.ok.injEq, Prod.mk.injEq] at hok
    obtain ⟨ho, hh⟩ := hok
    subst hh
    have pf := simulatePartsH_frame sim st hsim chip.parts sigRef h h1 hp
    refine ⟨fun r hr hne => ?_, ?_, ?_⟩
    · rw [Heap.read_alloc_lt h1 _ r (Nat.lt_of_lt_of_le hr pf.2), pf.1 r hr hne]
    · omega
    · rw [Heap.size_alloc]; omega

theorem simulateBuiltinH_frame (chip : Chip) (sigRef : Nat) (h : Heap)
    (oR : Nat) (h' : Heap) (hok : simulateBuiltinH chip sigRef h = .ok (oR, h')) :
    (∀ r, r < h.size → h'.read r = h.read r) ∧ oR = h.size ∧ h'.size = h.size + 1 := by
  unfold simulateBuiltinH at hok
  cases hb : builtinLogic chip.name with
  | none => rw [hb] at hok; exact Except.noConfusion hok
  | some f =>
    rw [hb] at hok
    simp only [Except.ok.injEq, Prod.mk.injEq] at hok
    obtain ⟨ho, hh⟩ := hok
    subst hh
    exact ⟨fun r hr => Heap.read_alloc_lt h _ r hr, ho.symm, Heap.size_alloc h _⟩

theorem simulateChipH_frame (st : Store) :
    ∀ fuel, SimFrame (simulateChipH st fuel) := by
  intro fuel
  induction fuel with
  | zero => intro nm iR h oR h' hok; exact Except.noConfusion hok
  | succ fuel ih =>
    intro nm iR h oR h' hok
    unfold simulateChipH at hok
    cases hdef : getChip st nm with
    | none => rw [hdef] at hok; exact Except.noConfusion hok
    | some chip =>
      rw [hdef] at hok
      simp only at hok
      by_cases hb : chip.is_builtin
      · rw [if_pos hb] at hok
        have bf := simulateBuiltinH_frame chip h.size (h.alloc (h.read iR)) oR h' hok
        refine ⟨fun r hr => ?_, ?_, ?_⟩
        · rw [bf.1 r (by rw [Heap.size_alloc]; omega), Heap.read_alloc_lt h _ r hr]
        · have := bf.2.1
          rw [Heap.size_alloc] at this
          omega
        · have h1 := bf.2.1
          have h2 := bf.2.2
          omega
      · rw [if_neg hb] at hok
        have cf := simulateCompositeWithH_frame (simulateChipH st fuel) st ih chip
          h.size (h.alloc (h.read iR)) oR h' hok
        refine ⟨fun r hr => ?_, ?_, ?_⟩
        · rw [cf.1 r (by rw [Heap.size_alloc]; omega) (Nat.ne_of_lt hr),
            Heap.read_alloc_lt h _ r hr]
        · have := cf.2.1
          rw [Heap.size_alloc] at this
          omega
        · exact cf.2.2

/-! ## Helper lemmas: pure simulator -/

/-- The `part_inputs` dict built by `_simulate_part` depends only on the
values the enclosing signal table assigns to the routed signals. -/
theorem partInputs_eq_of_agree (cdef : Chip) (part : ChipInstance) (s1 s2 : PyDict)
    (hagree : ∀ c ∈ part.connections, c.to_pin ∈ cdef.inputs →
      dictGet s1 c.from_pin 0 = dictGet s2 c.from_pin 0) :
    partInputs cdef part s1 = partInputs cdef part s2 := by
  unfold partInputs
  suffices h : ∀ (cs : List Connection) (acc : PyDict),
      (∀ c ∈ cs, c.to_pin ∈ cdef.inputs →
        dictGet s1 c.from_pin 0 = dictGet s2 c.from_pin 0) →
      cs.foldl (fun acc c => if c.to_pin ∈ cdef.inputs then
          dictSet acc c.to_pin (dictGet s1 c.from_pin 0) else acc) acc
        = cs.foldl (fun acc c => if c.to_pin ∈ cdef.inputs then
          dictSet acc c.to_pin (dictGet s2 c.from_pin 0) else acc) acc by
    exact h part.connections [] hagree
  intro cs
  induction cs with
  | nil => intro acc _; rfl
  | cons c rest ih =>
    intro acc hcs
    simp only [List.foldl_cons]
    by_cases hc : c.to_pin ∈ cdef.inputs
    · rw [if_pos hc, if_pos hc, hcs c (by simp) hc]
      exact ih _ (fun c' hc' => hcs c' (by simp [hc']))
    · rw [if_neg hc, if_neg hc]
      exact ih _ (fun c' hc' => hcs c' (by simp [hc']))

/-- The write-back loop of `_simulate_part` changes the enclosing signal
table only at the external names of output-pin connections. -/
theorem dictGet_writeOutputs_ne (cdef : Chip) (part : ChipInstance)
    (part_outputs : PyDict) (s : PyDict) (k : PyStr)
    (hk : ∀ c ∈ part.connections, c.to_pin ∈ cdef.outputs → c.from_pin ≠ k) :
    dictGet (writeOutputs cdef part part_outputs s) k 0 = dictGet s k 0 := by
  unfold writeOutputs
  suffices h : ∀ (cs : List Connection) (acc : PyDict),
      (∀ c ∈ cs, c.to_pin ∈ cdef.outputs → c.from_pin ≠ k) →
      dictGet (cs.foldl (fun acc c => if c.to_pin ∈ cdef.outputs then
        dictSet acc c.from_pin (dictGet part_outputs c.to_pin 0) else acc) acc) k 0
        = dictGet acc k 0 by
    exact h part.connections s hk
  intro cs
  induction cs with
  | nil => intro acc _; rfl
  | cons c rest ih =>
    intro acc hcs
    simp only [List.foldl_cons]
    by_cases hc : c.to_pin ∈ cdef.outputs
    · rw [if_pos hc, ih _ (fun c' hc' => hcs c' (by simp [hc'])),
        dictGet_set_ne _ _ _ _ _ (hcs c (by simp) hc)]
    · rw [if_neg hc]
      exact ih _ (fun c' hc' => hcs c' (by simp [hc']))

/-- If the signal table is `0` (or unset) on every declared output, the
output projection of `_simulate_composite` is `0` everywhere. -/
theorem outputProjection_all_zero (chip : Chip) (signals : PyDict)
    (hz : ∀ o ∈ chip.outputs, dictGet signals o 0 = 0) :
    ∀ k, dictGet (outputProjection chip signals) k 0 = 0 := by
  unfold outputProjection
  suffices h : ∀ (l : List PyStr) (acc : PyDict),
      (∀ k, dictGet acc k 0 = 0) → (∀ o ∈ l, dictGet signals o 0 = 0) →
      ∀ k, dictGet (l.foldl (fun acc o => dictSet acc o (dictGet signals o 0)) acc) k 0 = 0 by
    exact h chip.outputs [] (fun k => rfl) hz
  intro l
  induction l with
  | nil => intro acc hacc _ k; exact hacc k
  | cons o rest ih =>
    intro acc hacc hl k
    simp only [List.foldl_cons]
    refine ih _ (fun k' => ?_) (fun o' ho' => hl o' (by simp [ho'])) k
    by_cases ho : o = k'
    · subst ho; rw [dictGet_set_self, hl o (by simp)]
    · rw [dictGet_set_ne _ _ _ _ _ ho]; exact hacc k'

/-! ## Helper lemmas: strings and splitting -/

theorem splitOnChar_of_not_mem (c : Char) (l : PyStr) (h : c ∉ l) :
    splitOnChar c l = [l] := by
  induction l with
  | nil => rfl
  | cons x xs ih =>
    have hx : ¬ x = c := fun he => h (he ▸ List.mem_cons_self x xs)
    have hxs : c ∉ xs := fun hm => h (List.mem_cons_of_mem x hm)
    simp only [splitOnChar, if_neg hx, ih hxs]

theorem splitOnChar_append (c : Char) (a b : PyStr) (h : c ∉ a) :
    splitOnChar c (a ++ c :: b) = a :: splitOnChar c b := by
  induction a with
  | nil => simp [splitOnChar]
  | cons x xs ih =>
    have hx : ¬ x = c := fun he => h (he ▸ List.mem_cons_self x xs)
    have hxs : c ∉ xs := fun hm => h (List.mem_cons_of_mem x hm)
    simp only [List.cons_append, splitOnChar, List.append_eq, if_neg hx, ih hxs]

theorem takeWhile_append_stop {p : Char → Bool} (a : PyStr) (x : Char) (b : PyStr)
    (ha : ∀ y ∈ a, p y = true) (hx : p x = false) :
    (a ++ x :: b).takeWhile p = a := by
  induction a with
  | nil => simp [List.takeWhile_cons, hx]
  | cons y ys ih =>
    have hrec := ih (fun z hz => ha z (by simp [hz]))
    simp [List.takeWhile_cons, ha y (by simp), hrec]

theorem dropWhile_append_stop {p : Char → Bool} (a : PyStr) (x : Char) (b : PyStr)
    (ha : ∀ y ∈ a, p y = true) (hx : p x = false) :
    (a ++ x :: b).dropWhile p = x :: b := by
  induction a with
  | nil => simp [List.dropWhile_cons, hx]
  | cons y ys ih =>
    simp only [List.cons_append, List.dropWhile_cons, ha y (by simp)]
    exact ih (fun z hz => ha z (by simp [hz]))

theorem length_dropWhile_le' {p : Char → Bool} : ∀ l : PyStr,
    (l.dropWhile p).length ≤ l.length := by
  intro l
  induction l with
  | nil => simp
  | cons x xs ih =>
    rw [List.dropWhile_cons]
    by_cases hx : p x
    · simp only [hx, if_true]; exact Nat.le_succ_of_le ih
    · simp [hx]

theorem dropWhile_eq_self_of_length {p : Char → Bool} (l : PyStr)
    (h : (l.dropWhile p).length = l.length) : l.dropWhile p = l := by
  cases l with
  | nil => rfl
  | cons x xs =>
    rw [List.dropWhile_cons]
    by_cases hx : p x
    · rw [List.dropWhile_cons, if_pos hx] at h
      have := length_dropWhile_le' (p := p) xs
      simp only [List.length_cons] at h
      omega
    · rw [if_neg hx]

/-- A line may only shrink under a one-sided trim. -/
theorem length_ltrimC_le (l : PyStr) : (ltrimC l).length ≤ l.length :=
  length_dropWhile_le' l

theorem length_rtrimC_le (l : PyStr) : (rtrimC l).length ≤ l.length := by
  unfold rtrimC
  rw [List.length_reverse]
  calc (l.reverse.dropWhile isPySpace).length ≤ l.reverse.length :=
        length_dropWhile_le' l.reverse
    _ = l.length := List.length_reverse l

/-- A string equal to its own `strip()` is already trimmed on the left. -/
theorem ltrimC_fix_of_pyStrip_fix (l : PyStr) (h : pyStrip l = l) : ltrimC l = l := by
  have h1 : (pyStrip l).length ≤ (l.dropWhile isPySpace).length :=
    length_rtrimC_le (ltrimC l)
  have h2 : (l.dropWhile isPySpace).length ≤ l.length := length_ltrimC_le l
  have h3 : (pyStrip l).length = l.length := by rw [h]
  exact dropWhile_eq_self_of_length l (by omega)

/-- A string equal to its own `strip()` is already trimmed on the right. -/
theorem rtrimC_fix_of_pyStrip_fix (l : PyStr) (h : pyStrip l = l) : rtrimC l = l := by
  have hl := ltrimC_fix_of_pyStrip_fix l h
  unfold pyStrip at h
  rw [hl] at h
  exact h

theorem dropWhile_fix_append {p : Char → Bool} (a : PyStr) (x : Char) (b : PyStr)
    (ha : a.dropWhile p = a) (hx : p x = false) :
    (a ++ x :: b).dropWhile p = a ++ x :: b := by
  cases a with
  | nil => simp [List.dropWhile_cons, hx]
  | cons y ys =>
    have hy : p y = false := by
      by_contra hpy
      rw [List.dropWhile_cons, if_pos (by simpa using hpy)] at ha
      have := length_dropWhile_le' (p := p) ys
      have hlen : (ys.dropWhile p).length = ys.length + 1 := by rw [ha]; rfl
      omega
    rw [List.cons_append, List.dropWhile_cons, if_neg (by simp [hy])]

/-- Stripping a string of the shape `pre ++ x :: post` with `pre` trimmed
on the left, `post` trimmed on the right and `x` not whitespace is the
identity. -/
theorem pyStrip_fix_append (pre : PyStr) (x : Char) (post : PyStr)
    (hpre : ltrimC pre = pre) (hpost : rtrimC post = post)
    (hx : isPySpace x = false) :
    pyStrip (pre ++ x :: post) = pre ++ x :: post := by
  have hrev : post.reverse.dropWhile isPySpace = post.reverse := by
    have : (post.reverse.dropWhile isPySpace).reverse = post := hpost
    calc post.reverse.dropWhile isPySpace
        = ((post.reverse.dropWhile isPySpace).reverse).reverse := by
          rw [List.reverse_reverse]
      _ = post.reverse := by rw [this]
  unfold pyStrip
  rw [show ltrimC (pre ++ x :: post) = pre ++ x :: post from
    dropWhile_fix_append pre x post hpre hx]
  unfold rtrimC
  have : (pre ++ x :: post).reverse = post.reverse ++ x :: pre.reverse := by
    simp [List.reverse_append]
  rw [this, dropWhile_fix_append post.reverse x pre.reverse hrev hx]
  simp [List.reverse_append]

theorem mem_dropWhile {p : Char → Bool} {a : Char} :
    ∀ l : PyStr, a ∈ l.dropWhile p → a ∈ l := by
  intro l
  induction l with
  | nil => simp
  | cons x xs ih =>
    rw [List.dropWhile_cons]
    by_cases hx : p x
    · simp only [hx, if_true]
      intro h
      exact List.mem_cons_of_mem x (ih h)
    · simp [hx]

theorem mem_of_mem_pyStrip {a : Char} {l : PyStr} (h : a ∈ pyStrip l) : a ∈ l := by
  unfold pyStrip rtrimC at h
  rw [List.mem_reverse] at h
  have h2 := mem_dropWhile _ h
  rw [List.mem_reverse] at h2
  exact mem_dropWhile _ h2

/-! ## Claim theorems -/

/-- C1: For every input map over `{0,1}`, simulating one of the four
built-in chips against a freshly initialised parser state returns the
single-entry output map `{'out': v}` given by the fixed truth tables —
`Nand(a,b) = 0` iff `a = 1` and `b = 1`, `And(a,b) = 1` iff `a = 1` and
`b = 1`, `Or(a,b) = 1` iff `a = 1` or `b = 1`, `Not(in) = 1` iff
`in = 0` — where each expected input is looked up with default `0`, so a
missing key is treated as `0` rather than raising an error. -/
theorem builtin_truth_tables (fr : PyStr → Option Chip) (inputs : PyDict) (fuel : Nat)
    (hbits : ∀ p ∈ inputs, p.2 = 0 ∨ p.2 = 1) :
    simulateChip (initStore fr) (fuel + 1) (ps "Nand") inputs =
      .ok [(ps "out", if dictGet inputs (ps "a") 0 = 1 ∧ dictGet inputs (ps "b") 0 = 1
        then 0 else 1)] ∧
    simulateChip (initStore fr) (fuel + 1) (ps "And") inputs =
      .ok [(ps "out", if dictGet inputs (ps "a") 0 = 1 ∧ dictGet inputs (ps "b") 0 = 1
        then 1 else 0)] ∧
    simulateChip (initStore fr) (fuel + 1) (ps "Or") inputs =
      .ok [(ps "out", if dictGet inputs (ps "a") 0 = 1 ∨ dictGet inputs (ps "b") 0 = 1
        then 1 else 0)] ∧
    simulateChip (initStore fr) (fuel + 1) (ps "Not") inputs =
      .ok [(ps "out", if dictGet inputs (ps "in") 0 = 0 then 1 else 0)] :=
  ⟨rfl, rfl, rfl, rfl⟩

/-- Witness for C1, at an input map that binds `a` to `1` and omits `b`
entirely: the missing `b` is read as `0`, so `Nand` yields `1`. -/
theorem builtin_truth_tables_witness :
    (∀ p ∈ ([(ps "a", (1 : Int))] : PyDict), p.2 = 0 ∨ p.2 = 1) ∧
    simulateChip (initStore fun _ => none) 1 (ps "Nand") [(ps "a", 1)] =
      .ok [(ps "out", 1)] :=
  ⟨by decide, (builtin_truth_tables (fun _ => none) [(ps "a", 1)] 0 (by decide)).1⟩

/-- C3: Simulating a chip name that is neither registered in the store nor
resolvable from its conventionally named source file fails with the
explicit unknown-chip error (the `ValueError` of `simulate_chip`),
propagated to the caller — never a silently zeroed output map. -/
theorem unknown_chip_error (st : Store) (chip_name : PyStr) (inputs : PyDict)
    (fuel : Nat)
    (hreg : st.chips.find? (fun p => p.1 == chip_name) = none)
    (hfile : st.fileResolve chip_name = none) :
    simulateChip st (fuel + 1) chip_name inputs =
      .error ("Unknown chip: " ++ String.mk chip_name) := by
  have hg : getChip st chip_name = none := by
    unfold getChip
    rw [hreg, hfile]
  unfold simulateChip
  rw [hg]

/-- Witness for C3: `Foo` is not among the built-ins and has no source
file, so simulating it errors. -/
theorem unknown_chip_error_witness :
    simulateChip (initStore fun _ => none) 1 (ps "Foo") [] =
      .error ("Unknown chip: " ++ String.mk (ps "Foo")) :=
  unknown_chip_error (initStore fun _ => none) (ps "Foo") [] 0 rfl rfl

/-- C6: De Morgan consistency of the engine's own built-in logic
functions, for `a, b ∈ {0, 1}`: `Nand(a,b) = 1 - And(a,b)` and
`Or(a,b) = Not(And(Not(a), Not(b)))`. -/
theorem de_morgan_builtin (a b : Int) (ha : a = 0 ∨ a = 1) (hb : b = 0 ∨ b = 1) :
    dictGet (nandLogic [(ps "a", a), (ps "b", b)]) (ps "out") 0 =
      1 - dictGet (andLogic [(ps "a", a), (ps "b", b)]) (ps "out") 0 ∧
    dictGet (orLogic [(ps "a", a), (ps "b", b)]) (ps "out") 0 =
      dictGet (notLogic [(ps "in",
        dictGet (andLogic
          [(ps "a", dictGet (notLogic [(ps "in", a)]) (ps "out") 0),
           (ps "b", dictGet (notLogic [(ps "in", b)]) (ps "out") 0)])
          (ps "out") 0)]) (ps "out") 0 := by
  rcases ha with rfl | rfl <;> rcases hb with rfl | rfl <;>
    exact ⟨by decide, by decide⟩

/-- Witness for C6 at `a = 1`, `b = 0`. -/
theorem de_morgan_builtin_witness :
    ((1 : Int) = 0 ∨ (1 : Int) = 1) ∧ ((0 : Int) = 0 ∨ (0 : Int) = 1) ∧
    (dictGet (nandLogic [(ps "a", 1), (ps "b", 0)]) (ps "out") 0 =
      1 - dictGet (andLogic [(ps "a", 1), (ps "b", 0)]) (ps "out") 0 ∧
    dictGet (orLogic [(ps "a", 1), (ps "b", 0)]) (ps "out") 0 =
      dictGet (notLogic [(ps "in",
        dictGet (andLogic
          [(ps "a", dictGet (notLogic [(ps "in", 1)]) (ps "out") 0),
           (ps "b", dictGet (notLogic [(ps "in", 0)]) (ps "out") 0)])
          (ps "out") 0)]) (ps "out") 0) :=
  ⟨Or.inr rfl, Or.inl rfl, de_morgan_builtin 1 0 (Or.inr rfl) (Or.inl rfl)⟩

/-- C8: `is_builtin` answers `true` exactly for the four fixed primitive
identifiers; since it consults only the `BUILTIN_CHIPS` class constant
and never the mutable registry, the same fixed criterion keeps holding
after any successful `parse_content` registration — including for the
name of the chip just registered. -/
theorem is_builtin_fixed (chip_name : PyStr) :
    (isBuiltin chip_name = true ↔ (chip_name = ps "Nand" ∨ chip_name = ps "Not" ∨
      chip_name = ps "And" ∨ chip_name = ps "Or")) ∧
    (∀ (chips chips' : List (PyStr × Chip)) (content : PyStr) (chip : Chip),
      parseContent chips content = .ok (chips', chip) →
      (isBuiltin chip_name = true ↔ (chip_name = ps "Nand" ∨ chip_name = ps "Not" ∨
        chip_name = ps "And" ∨ chip_name = ps "Or"))) := by
  have base : isBuiltin chip_name = true ↔ (chip_name = ps "Nand" ∨
      chip_name = ps "Not" ∨ chip_name = ps "And" ∨ chip_name = ps "Or") := by
    unfold isBuiltin BUILTIN_CHIPS
    simp only [List.any_cons, List.any_nil, Bool.or_eq_true, Bool.or_false,
      beq_iff_eq]
    constructor
    · rintro (h | h | h | h)
      · exact Or.inl h.symm
      · exact Or.inr (Or.inl h.symm)
      · exact Or.inr (Or.inr (Or.inl h.symm))
      · exact Or.inr (Or.inr (Or.inr h.symm))
    · rintro (h | h | h | h)
      · exact Or.inl h.symm
      · exact Or.inr (Or.inl h.symm)
      · exact Or.inr (Or.inr (Or.inl h.symm))
      · exact Or.inr (Or.inr (Or.inr h.symm))
  exact ⟨base, fun _ _ _ _ _ => base⟩

/-- Witness for C8: parsing `CHIP Nand` registers a user chip under the
name `Nand`, and `is_builtin` still answers by the fixed table. -/
theorem is_builtin_fixed_witness :
    isBuiltin (ps "Nand") = true ↔ (ps "Nand" = ps "Nand" ∨ ps "Nand" = ps "Not" ∨
      ps "Nand" = ps "And" ∨ ps "Nand" = ps "Or") :=
  (is_builtin_fixed (ps "Nand")).2 [] _ (ps "CHIP Nand") _ rfl

/-- The chip of the C4 counterexample: no parts, and the single name `a`
is declared both as an input pin and as an output pin (the parser accepts
such a chip: `IN a;` + `OUT a;`). -/
def chipX : Chip :=
  { name := ps "X", inputs := [ps "a"], outputs := [ps "a"], parts := [],
    is_builtin := false }

/-- A store holding only `chipX`, with an empty chip directory. -/
def storeX : Store := { chips := [(ps "X", chipX)], fileResolve := fun _ => none }

/-- C4 counterexample: for a part-less chip whose output pin `a` is also a
declared input pin, an input map binding only declared input names
(`{a: 1}`) makes `simulate` echo `1` on the output `a` — not `0` as the
claim states for every such chip. -/
theorem no_parts_zero_counterexample :
    simulateChip storeX 1 (ps "X") [(ps "a", 1)] = .ok [(ps "a", 1)] ∧
    ¬ (∀ out, simulateChip storeX 1 (ps "X") [(ps "a", 1)] = .ok out →
        ∀ o ∈ chipX.outputs, dictGet out o 0 = 0) := by
  refine ⟨rfl, fun h => ?_⟩
  exact absurd (h [(ps "a", 1)] rfl (ps "a") (by simp [chipX])) (by decide)

/-- C4 as amended: for every part-less non-builtin chip with at least one
declared output, *whose output pins do not reappear among its input
pins*, and every input map binding only declared input-pin names,
`simulate` succeeds and binds every declared output pin to `0`. -/
theorem no_parts_outputs_zero (st : Store) (chip_name : PyStr) (chip : Chip)
    (inputs : PyDict) (fuel : Nat)
    (hchip : getChip st chip_name = some chip)
    (hnb : chip.is_builtin = false)
    (hparts : chip.parts = [])
    (hout : chip.outputs ≠ [])
    (hbind : ∀ p ∈ inputs, p.1 ∈ chip.inputs)
    (hdisj : ∀ o ∈ chip.outputs, o ∉ chip.inputs) :
    ∃ out, simulateChip st (fuel + 1) chip_name inputs = .ok out ∧
      ∀ o ∈ chip.outputs, dictGet out o 0 = 0 := by
  have hz : ∀ o ∈ chip.outputs, dictGet inputs o 0 = 0 := by
    intro o ho
    refine dictGet_default_of_no_key inputs o 0 (fun p hp hpk => ?_)
    exact hdisj o ho (hpk ▸ hbind p hp)
  refine ⟨outputProjection chip inputs, ?_, fun o ho =>
    outputProjection_all_zero chip inputs hz o⟩
  unfold simulateChip
  rw [hchip]
  simp only [hnb, Bool.false_eq_true, if_false]
  unfold simulateCompositeWith
  rw [hparts]
  simp [List.foldlM_nil, pure, Except.pure]

/-- Witness chip for the amended C4: one input `a`, one distinct output
`b`, no parts. -/
def chipY : Chip :=
  { name := ps "Y", inputs := [ps "a"], outputs := [ps "b"], parts := [],
    is_builtin := false }

/-- A store holding only `chipY`. -/
def storeY : Store := { chips := [(ps "Y", chipY)], fileResolve := fun _ => none }

/-- Witness for the amended C4: simulating `chipY` on `{a: 1}` produces an
output map sending the declared output `b` to `0`. -/
theorem no_parts_outputs_zero_witness :
    ∃ out, simulateChip storeY 1 (ps "Y") [(ps "a", 1)] = .ok out ∧
      ∀ o ∈ chipY.outputs, dictGet out o 0 = 0 :=
  no_parts_outputs_zero storeY (ps "Y") chipY [(ps "a", 1)] 0 rfl rfl rfl
    (by decide) (by decide) (by decide)

/-- C5 (heap model): a successful `simulate_chip` call leaves the
caller-supplied `inputs` dict unchanged (the very same heap object holds
the very same entries afterwards) and returns a reference allocated
during the call — a freshly constructed output mapping, distinct from
every dict that existed before, in particular from `inputs`. -/
theorem simulate_fresh_output_no_mutation (st : Store) (fuel : Nat)
    (chip_name : PyStr) (inRef : Nat) (h : Heap) (outRef : Nat) (h' : Heap)
    (hin : inRef < h.size)
    (hok : simulateChipH st fuel chip_name inRef h = .ok (outRef, h')) :
    h'.read inRef = h.read inRef ∧ h.size ≤ outRef ∧ outRef ≠ inRef := by
  have f := simulateChipH_frame st fuel chip_name inRef h outRef h' hok
  refine ⟨f.1 inRef hin, f.2.1, ?_⟩
  have := f.2.1
  omega

/-- Witness for C5: simulating `Nand` on the heap holding the single
input dict `{a: 1, b: 1}` at reference `0` returns the fresh reference
`2` and leaves the dict at `0` intact. -/
theorem simulate_fresh_output_no_mutation_witness :
    (0 < (Heap.mk [[(ps "a", 1), (ps "b", 1)]]).size) ∧
    ((Heap.mk [[(ps "a", 1), (ps "b", 1)], [(ps "a", 1), (ps "b", 1)],
        [(ps "out", 0)]]).read 0
      = (Heap.mk [[(ps "a", 1), (ps "b", 1)]]).read 0 ∧
    (Heap.mk [[(ps "a", 1), (ps "b", 1)]]).size ≤ 2 ∧ (2 : Nat) ≠ 0) :=
  ⟨by decide, simulate_fresh_output_no_mutation (initStore fun _ => none) 1
    (ps "Nand") 0 (Heap.mk [[(ps "a", 1), (ps "b", 1)]]) 2
    (Heap.mk [[(ps "a", 1), (ps "b", 1)], [(ps "a", 1), (ps "b", 1)],
      [(ps "out", 0)]]) (by decide) rfl⟩

/-- C2: within a composite chip, the nested simulate call for a part
depends only on the values explicitly routed to it: its `part_inputs`
dict — and hence the whole nested call — is identical for any two
enclosing signal tables agreeing on the external signals wired to the
part's declared input pins, and the part simulation leaves every name of
the enclosing table untouched except the external names wired to the
part's declared output pins (so internal names of the nested instance,
such as a shared `temp`, never leak into the enclosing scope). -/
theorem part_isolation (st : Store) (fuel : Nat) (part : ChipInstance)
    (cdef : Chip) (s1 s2 : PyDict)
    (hdef : getChip st part.chip_name = some cdef)
    (hagree : ∀ c ∈ part.connections, c.to_pin ∈ cdef.inputs →
      dictGet s1 c.from_pin 0 = dictGet s2 c.from_pin 0) :
    partInputs cdef part s1 = partInputs cdef part s2 ∧
    simulateChip st fuel part.chip_name (partInputs cdef part s1) =
      simulateChip st fuel part.chip_name (partInputs cdef part s2) ∧
    (∀ (k : PyStr) (s1' : PyDict), simulatePart st fuel part s1 = .ok s1' →
      (∀ c ∈ part.connections, c.to_pin ∈ cdef.outputs → c.from_pin ≠ k) →
      dictGet s1' k 0 = dictGet s1 k 0) := by
  have hpi := partInputs_eq_of_agree cdef part s1 s2 hagree
  refine ⟨hpi, by rw [hpi], ?_⟩
  intro k s1' hok hk
  unfold simulatePart simulatePartWith at hok
  rw [hdef] at hok
  simp only at hok
  cases hs : simulateChip st fuel part.chip_name (partInputs cdef part s1) with
  | error e => rw [hs] at hok; exact Except.noConfusion hok
  | ok pouts =>
    rw [hs] at hok
    simp only [Except.ok.injEq] at hok
    subst hok
    exact dictGet_writeOutputs_ne cdef part pouts s1 k hk

/-- The built-in `Nand` chip definition, as stored in a fresh registry. -/
def nandChipDef : Chip :=
  { name := ps "Nand", inputs := [ps "a", ps "b"], outputs := [ps "out"],
    parts := [], is_builtin := true }

/-- A part instance wiring enclosing signal `x` to `Nand.a` and `Nand.out`
to enclosing signal `y`. -/
def partNand : ChipInstance :=
  { chip_name := ps "Nand", instance_name := ps "Nand",
    connections := [⟨ps "x", ps "a"⟩, ⟨ps "y", ps "out"⟩] }

/-- Witness for C2: the two signal tables `{x: 1, secret: 5}` and `{x: 1}`
agree on the routed signal `x`, so the part sees the same inputs; and the
part leaves the unrouted name `secret` unchanged. -/
theorem part_isolation_witness :
    partInputs nandChipDef partNand [(ps "x", 1), (ps "secret", 5)] =
      partInputs nandChipDef partNand [(ps "x", 1)] ∧
    dictGet [(ps "x", (1 : Int)), (ps "secret", 5), (ps "y", 1)] (ps "secret") 0 =
      dictGet [(ps "x", (1 : Int)), (ps "secret", 5)] (ps "secret") 0 :=
  ⟨(part_isolation (initStore fun _ => none) 1 partNand nandChipDef
      [(ps "x", 1), (ps "secret", 5)] [(ps "x", 1)] rfl (by decide)).1,
   (part_isolation (initStore fun _ => none) 1 partNand nandChipDef
      [(ps "x", 1), (ps "secret", 5)] [(ps "x", 1)] rfl (by decide)).2.2
     (ps "secret") [(ps "x", 1), (ps "secret", 5), (ps "y", 1)] rfl (by decide)⟩

/-- The parts extracted by `_extract_parts` are exactly the successfully
matching lines of the PARTS region, parsed in source order. -/
theorem extractPartsAux_eq_filterMap : ∀ (lines : List PyStr) (b : Bool),
    extractPartsAux lines b = (partsRegionAux lines b).filterMap parsePartLine := by
  intro lines
  induction lines with
  | nil => intro b; rfl
  | cons line rest ih =>
    intro b
    unfold extractPartsAux partsRegionAux
    cases h1 : (ps "PARTS:").isPrefixOf line
    · cases h2 : ((ps "IN").isPrefixOf line || (ps "OUT").isPrefixOf line)
      · cases h3 : (b && !line.isEmpty)
        · simp [h1, h2, h3, ih]
        · cases hp : parsePartLine line <;> simp [h1, h2, h3, hp, ih]
      · simp [h1, h2, ih]
    · simp [h1, ih]

/-- C7: when the chip header parses, `parse_content` succeeds no matter
what the PARTS region contains: every region line failing the part-line
pattern is silently skipped (it yields no `ChipInstance` and raises no
error), and the parts list is exactly the pattern-matching lines of the
region, parsed in source order. -/
theorem parts_leniency (chips : List (PyStr × Chip)) (content : PyStr)
    (first : PyStr) (rest : List PyStr) (nm : PyStr)
    (hsplit : nonCommentLines content = first :: rest)
    (hname : matchChipHeader first = some nm) :
    ∃ chips' chip, parseContent chips content = .ok (chips', chip) ∧
      chip.parts = (partsRegion (nonCommentLines content)).filterMap parsePartLine := by
  unfold parseContent
  rw [hsplit]
  simp only [parseLines, extractChipName, hname]
  refine ⟨_, _, rfl, ?_⟩
  simp only [hsplit, partsRegion, extractParts, extractPartsAux_eq_filterMap]

/-- Witness for C7: a PARTS region with a malformed middle line; parsing
succeeds and yields exactly the two well-formed instances. -/
theorem parts_leniency_witness :
    ∃ chips' chip,
      parseContent []
        (ps "CHIP W\nPARTS:\nAnd (a=x, b=y)\nbad line!\nOr (a=y, out=o)") =
        .ok (chips', chip) ∧
      chip.parts = (partsRegion (nonCommentLines
        (ps "CHIP W\nPARTS:\nAnd (a=x, b=y)\nbad line!\nOr (a=y, out=o)"))).filterMap
        parsePartLine :=
  parts_leniency [] _ (ps "CHIP W")
    [ps "PARTS:", ps "And (a=x, b=y)", ps "bad line!", ps "Or (a=y, out=o)"]
    (ps "W") rfl rfl

/-- A token without `=` contributes no connection (and no error). -/
theorem parseConnToken_skip (acc : List Connection) (t : PyStr) (h : '=' ∉ t) :
    parseConnToken acc t = acc := by
  unfold parseConnToken
  rw [if_neg (fun hm => h (mem_of_mem_pyStrip hm))]

/-- A trimmed token of the shape `pre ++ '=' :: post` with `'=' ∉ pre`
contributes exactly the connection with local pin `pre` and external
signal `post` — the token is split at its *first* `=`. -/
theorem parseConnToken_split_first (acc : List Connection) (pre post : PyStr)
    (hpre : pyStrip pre = pre) (hpost : pyStrip post = post)
    (h1 : '=' ∉ pre) :
    parseConnToken acc (pre ++ '=' :: post) = acc ++ [⟨post, pre⟩] := by
  have hstrip : pyStrip (pre ++ '=' :: post) = pre ++ '=' :: post :=
    pyStrip_fix_append pre '=' post (ltrimC_fix_of_pyStrip_fix pre hpre)
      (rtrimC_fix_of_pyStrip_fix post hpost) (by decide)
  have hall : ∀ y ∈ pre, (y != '=') = true := by
    intro y hy
    simp only [bne_iff_ne, ne_eq]
    exact fun he => h1 (he ▸ hy)
  have hpin : (pre ++ '=' :: post).takeWhile (fun c => c != '=') = pre :=
    takeWhile_append_stop pre '=' post hall (by decide)
  have hsig : (pre ++ '=' :: post).dropWhile (fun c => c != '=') = '=' :: post :=
    dropWhile_append_stop pre '=' post hall (by decide)
  unfold parseConnToken
  rw [hstrip, if_pos (List.mem_append_right _ (List.mem_cons_self _ _)),
    hpin, hsig]
  simp only [List.tail_cons, hpre, hpost]

/-- C9: `_parse_connections` splits each comma token at its *first* `=`:
the connection's local pin is the trimmed text before the first `=` and
its external signal the entire trimmed remainder — even when that
remainder contains further `=` characters (no hypothesis restrains `=`
in `post`) — while a token with no `=` at all yields no connection and no
error. -/
theorem connection_split_first (pre post t : PyStr)
    (hpre : pyStrip pre = pre) (hpost : pyStrip post = post)
    (h1 : '=' ∉ pre) (h2 : ',' ∉ pre) (h3 : ',' ∉ post)
    (h4 : '=' ∉ t) (h5 : ',' ∉ t) :
    parseConnections (pre ++ '=' :: post) = [⟨post, pre⟩] ∧
    parseConnections (t ++ ',' :: (pre ++ '=' :: post)) = [⟨post, pre⟩] := by
  have hnc : ',' ∉ pre ++ '=' :: post := by
    intro hm
    rcases List.mem_append.mp hm with hma | hmb
    · exact h2 hma
    · rcases List.mem_cons.mp hmb with he | hmc
      · exact absurd he (by decide)
      · exact h3 hmc
  constructor
  · unfold parseConnections
    rw [splitOnChar_of_not_mem ',' _ hnc, List.foldl_cons, List.foldl_nil,
      parseConnToken_split_first [] pre post hpre hpost h1, List.nil_append]
  · unfold parseConnections
    rw [splitOnChar_append ',' t _ h5, splitOnChar_of_not_mem ',' _ hnc,
      List.foldl_cons, List.foldl_cons, List.foldl_nil,
      parseConnToken_skip [] t h4,
      parseConnToken_split_first [] pre post hpre hpost h1, List.nil_append]

/-- Witness for C9: the token `a=x=y` is split at the first `=` only (the
signal keeps the second `=`), and the `junk` token is dropped. -/
theorem connection_split_first_witness :
    parseConnections (ps "a" ++ '=' :: ps "x=y") = [⟨ps "x=y", ps "a"⟩] ∧
    parseConnections (ps "junk" ++ ',' :: (ps "a" ++ '=' :: ps "x=y")) =
      [⟨ps "x=y", ps "a"⟩] :=
  connection_split_first (ps "a") (ps "x=y") (ps "junk") (by decide) (by decide)
    (by decide) (by decide) (by decide) (by decide) (by decide)

/-- C10: when every line of the source is blank or recognised as a comment
line, `parse_content` hits the out-of-range access `non_comment_lines[0]`
(Python `IndexError`); it neither returns a chip nor registers one. -/
theorem empty_content_index_error (chips : List (PyStr × Chip)) (content : PyStr)
    (hall : ∀ l ∈ splitOnChar '\n' content,
      pyStrip l = [] ∨ keepLine (pyStrip l) = false) :
    parseContent chips content = .error "list index out of range" := by
  have hncl : nonCommentLines content = [] := by
    unfold nonCommentLines strippedLines
    rw [List.filter_eq_nil_iff]
    intro l hl
    rw [List.mem_filter] at hl
    obtain ⟨hmem, hne⟩ := hl
    rw [List.mem_map] at hmem
    obtain ⟨l0, hl0, rfl⟩ := hmem
    rcases hall l0 hl0 with he | hk
    · rw [he] at hne
      exact absurd hne (by decide)
    · simp [hk]
  unfold parseContent
  rw [hncl]
  rfl

/-- Witness for C10: a source consisting of a block comment and a blank
line only. -/
theorem empty_content_index_error_witness :
    parseContent [] (ps "/** doc\n * body\n*/\n   ") =
      .error "list index out of range" :=
  empty_content_index_error [] (ps "/** doc\n * body\n*/\n   ") (by decide)

end HDLVerify
